import Mathlib

/-!
A shallow embedding of the outline-extraction engine of `src/main.py`.

Strings are modelled as `List Char`.  The ASCII fragment of the Python
character classes (`str.isprintable`, regex `\s`, `str.lower`,
`str.isdigit`, `[a-zA-Z]`) is modelled explicitly.  Font sizes delivered
by the document-model provider are modelled as rationals; the Python
`round` (round-half-to-even) is modelled exactly on rationals.  Pages,
blocks, lines and spans mirror the dictionaries the provider returns.
-/

/-- ASCII fragment of Python regex `\s` (also `str.strip` whitespace):
space, tab, newline, carriage return, vertical tab, form feed. -/
def pyWs (c : Char) : Bool :=
  c == ' ' || c == Char.ofNat 9 || c == Char.ofNat 10 || c == Char.ofNat 13 ||
    c == Char.ofNat 11 || c == Char.ofNat 12

/-- ASCII fragment of Python `str.isprintable`: codepoints 0x20..0x7e. -/
def pyPrintable (c : Char) : Bool :=
  decide (32 ≤ c.toNat ∧ c.toNat < 127)

/-- Worker for `collapseWs`: the flag records whether the previous character
belonged to a whitespace run that has already emitted its single space. -/
def collapseWsAux : Bool → List Char → List Char
  | _, [] => []
  | inRun, c :: cs =>
    if pyWs c then
      if inRun then collapseWsAux true cs
      else ' ' :: collapseWsAux true cs
    else c :: collapseWsAux false cs

/-- The regex substitution of clean_text collapsing each maximal whitespace
run to one single space (re.sub over the whitespace class). -/
def collapseWs (l : List Char) : List Char := collapseWsAux false l

/-- Python `str.strip()`: drop whitespace from both ends. -/
def pyStrip (l : List Char) : List Char :=
  ((l.dropWhile pyWs).reverse.dropWhile pyWs).reverse

/-- The function clean_text (src/main.py lines 8-11): collapse whitespace
runs, keep only printable characters, strip. -/
def clean_text (text : List Char) : List Char :=
  pyStrip ((collapseWs text).filter pyPrintable)

/-- Python `str.lower`, ASCII fragment. -/
def listLower (l : List Char) : List Char := l.map Char.toLower

/-- Python `str.split()`: split on whitespace runs, dropping empty pieces. -/
def pySplit (l : List Char) : List (List Char) :=
  (l.foldr
    (fun c acc =>
      if pyWs c then [] :: acc
      else
        match acc with
        | [] => [[c]]
        | w :: ws => (c :: w) :: ws) []).filter (fun w => !w.isEmpty)

/-- Python `sep.join(pieces)` for a one-character separator. -/
def joinWith (c : Char) : List (List Char) → List Char
  | [] => []
  | [w] => w
  | w :: ws => w ++ c :: joinWith c ws

/-- Whether `text` starts with `pat`. -/
def listStartsWith : List Char → List Char → Bool
  | [], _ => true
  | _ :: _, [] => false
  | a :: as, b :: bs => a == b && listStartsWith as bs

/-- Python `pat in text` for strings: `pat` occurs as a contiguous substring. -/
def containsSub (text pat : List Char) : Bool :=
  match text with
  | [] => pat.isEmpty
  | _ :: rest => listStartsWith pat text || containsSub rest pat

/-- The endswith test of src/main.py line 29: last character is a dot,
colon or comma. -/
def endsSentencePunct (l : List Char) : Bool :=
  match l.getLast? with
  | some c => c == '.' || c == ':' || c == ','
  | none => false

/-- Python `str.isdigit` (ASCII fragment): nonempty and all digits. -/
def pyIsDigit (l : List Char) : Bool :=
  !l.isEmpty && l.all Char.isDigit

/-- The full-match test of rule 4 against the digits-and-dots pattern:
nonempty, every char a digit or a dot. -/
def numDotsFullmatch (l : List Char) : Bool :=
  !l.isEmpty && l.all (fun c => c.isDigit || c == '.')

/-- The Python f-string `f"H{n}"`. -/
def hLabel (n : ℕ) : List Char := 'H' :: Nat.toDigits 10 n

/-- Python `round` on a rational value `q`: round half to even.  With
`f = ⌊q⌋` and fractional part `rnum / q.den` where `rnum = q.num - f * q.den`
(so `0 ≤ rnum < q.den`), the fraction is below, above or exactly one half
according as `2 * rnum` compares with `q.den`. -/
def pyRound (q : ℚ) : ℤ :=
  let f := q.num.fdiv q.den
  let rnum := q.num - f * q.den
  if 2 * rnum < (q.den : ℤ) then f
  else if (q.den : ℤ) < 2 * rnum then f + 1
  else if f % 2 = 0 then f else f + 1

/-- A style is the pair of rounded font size and boldness (whether the
lowercased font name contains the word bold). -/
abbrev Style := ℤ × Bool

/-- One entry of `doc.get_toc()`: `(level, title, page)`. -/
structure TocEntry where
  level : ℕ
  title : List Char
  page : ℤ
deriving DecidableEq

/-- One record of the produced outline. -/
structure OutlineEntry where
  level : List Char
  text : List Char
  page : ℤ
deriving DecidableEq

/-- One record of `lines_with_styles` (src/main.py lines 87-91). -/
structure LineRec where
  text : List Char
  style : Style
  page : ℤ
deriving DecidableEq

/-- A text span as delivered by the provider: `{text, size, font}`. -/
structure Span where
  text : List Char
  size : ℚ
  font : List Char
deriving DecidableEq

/-- A line of a block: its spans. -/
structure PdfLine where
  spans : List Span
deriving DecidableEq

/-- A block of a page: its type tag (0 = text) and its lines. -/
structure PdfBlock where
  btype : ℕ
  lines : List PdfLine
deriving DecidableEq

/-- A document as consumed from the provider: pages of blocks, plus the
embedded table of contents. -/
structure Doc where
  pages : List (List PdfBlock)
  toc : List TocEntry
deriving DecidableEq

/-- The output record `{"title": ..., "outline": [...]}`. -/
structure OutlineDoc where
  title : List Char
  outline : List OutlineEntry
deriving DecidableEq

/-- Worker for `keyOrder`: keep the first occurrence of each value,
remembering in `seen` the values already emitted. -/
def keyOrderAux {α : Type} [DecidableEq α] (seen : List α) : List α → List α
  | [] => []
  | a :: rest =>
    if a ∈ seen then keyOrderAux seen rest
    else a :: keyOrderAux (a :: seen) rest

/-- Distinct values of a list in first-occurrence order (the key order of a
Python `Counter` / `dict`). -/
def keyOrder {α : Type} [DecidableEq α] (l : List α) : List α := keyOrderAux [] l

/-- The most-common element of a Counter built over `l` (with `none` for an
empty counter): the most frequent value; ties resolved to the
first-inserted key, as the stable sort in Counter.most_common does. -/
def mostCommon {α : Type} [DecidableEq α] (l : List α) : Option α :=
  match keyOrder l with
  | [] => none
  | k :: ks => some (ks.foldl (fun best t => if l.count best < l.count t then t else best) k)

/-- The common_labels set of rule 4 (src/main.py line 33). -/
def common_labels : List (List Char) :=
  ["name", "age", "s.no", "date", "relationship", "remarks", "version", "goals"].map
    String.toList

/-- The non_headings set of rule 6 (src/main.py line 42). -/
def non_headings : List (List Char) :=
  ["mission statement", "elective course offerings", "what colleges say!"].map
    String.toList

/-- The classifier is_likely_heading_by_style (src/main.py lines 13-46);
the source-local variable is_distinct_style is inlined into the rule-1
test. -/
def is_likely_heading_by_style (text : List Char) (style body_style : Style) : Bool :=
  -- Rule 1: style distinct from body (larger, or equal size and bold vs non-bold).
  if !(decide (body_style.1 < style.1) ||
      (style.1 == body_style.1 && style.2 && !body_style.2)) then false
  -- Rule 2: conciseness.
  else if decide (15 < (pySplit text).length) then false
  -- Rule 3: terminal punctuation.
  else if endsSentencePunct text then false
  -- Rule 4: common label or pure number.
  else if common_labels.contains (listLower text) || numDotsFullmatch text then false
  -- Rule 5: junk, URL, dashes, too few letters.
  else if containsSub (listLower text) ("www.".toList) ||
      containsSub (listLower text) (".com".toList) ||
      containsSub text ("----".toList) ||
      decide ((text.filter Char.isAlpha).length < 3) then false
  -- Rule 6: known non-heading phrases.
  else if non_headings.contains (listLower text) then false
  else true

/-- The function process_from_toc (src/main.py lines 48-64). -/
def process_from_toc (doc : Doc) : List OutlineEntry :=
  doc.toc.foldl
    (fun outline t =>
      let clean_title := clean_text t.title
      if !(pyIsDigit clean_title) then
        outline ++ [{ level := hLabel t.level, text := clean_title, page := t.page }]
      else outline) []

/-- The style of one span: rounded size paired with boldness of the font
name (src/main.py line 82). -/
def spanStyle (s : Span) : Style :=
  (pyRound s.size, containsSub (listLower s.font) ("bold".toList))

/-- One iteration of the line loop (src/main.py lines 78-91): normalized
joined text, skip if empty, dominant style by frequency. -/
def lineRecOf (page : ℤ) (l : PdfLine) : Option LineRec :=
  let line_text := clean_text (joinWith ' ' (l.spans.map Span.text))
  if line_text.isEmpty then none
  else
    match mostCommon (l.spans.map spanStyle) with
    | none => none
    | some dominant_style => some { text := line_text, style := dominant_style, page := page }

/-- The list lines_with_styles (src/main.py lines 71-92): all lines of type-0
blocks, in page order, with one-based page numbers. -/
def extractLines (doc : Doc) : List LineRec :=
  doc.pages.enum.flatMap
    (fun pp =>
      pp.2.flatMap
        (fun b =>
          if b.btype = 0 then b.lines.filterMap (lineRecOf ((pp.1 : ℤ) + 1)) else []))

/-- The body style, the most common entry of style_counts (src/main.py
line 97), `none` when there are no lines at all. -/
def bodyStyleOf (lines : List LineRec) : Option Style :=
  mostCommon (lines.map LineRec.style)

/-- The accepted heading_lines (src/main.py lines 99-104). -/
def headingLinesOf (lines : List LineRec) (body : Style) : List LineRec :=
  lines.filter (fun ln => is_likely_heading_by_style ln.text ln.style body)

/-- The set heading_styles of the source: the distinct styles of accepted
heading lines. -/
def headingStylesOf (lines : List LineRec) (body : Style) : List Style :=
  keyOrder ((headingLinesOf lines body).map LineRec.style)

/-- Key comparison of `sorted(..., key=lambda x: (x[0], x[1]))`:
lexicographic on (size, bold) with False < True. -/
def styleLe (a b : Style) : Bool :=
  decide (a.1 < b.1) || (a.1 == b.1 && (!a.2 || b.2))

/-- The descending sort relation of `sorted(..., reverse=True)`. -/
def styleDescR (a b : Style) : Prop := styleLe b a = true

instance : DecidableRel styleDescR := fun a b => Bool.decEq (styleLe b a) true

/-- The list sorted_heading_styles (src/main.py line 106). -/
def sortStylesDesc (ss : List Style) : List Style :=
  List.insertionSort styleDescR ss

/-- The level_map (src/main.py line 107): the i-th sorted style maps to
`H(i+1)`. -/
def mkLevelMap (ss : List Style) : List (Style × List Char) :=
  ss.enum.map (fun p => (p.2, hLabel (p.1 + 1)))

/-- The level_map.get lookup with default label H9 (src/main.py line 115). -/
def levelLookup (m : List (Style × List Char)) (s : Style) : List Char :=
  match m.find? (fun p => p.1 == s) with
  | some p => p.2
  | none => "H9".toList

/-- The output loop of `process_by_styles` (src/main.py lines 109-120):
emit one entry per first occurrence of a text, tracking `processed_texts`. -/
def emitLoop (level_map : List (Style × List Char)) :
    List LineRec → List (List Char) → List OutlineEntry
  | [], _ => []
  | ln :: rest, processed_texts =>
    if ln.text ∈ processed_texts then emitLoop level_map rest processed_texts
    else
      { level := levelLookup level_map ln.style, text := ln.text, page := ln.page } ::
        emitLoop level_map rest (ln.text :: processed_texts)

/-- Lines 99-120 of src/main.py, given the extracted lines and body style. -/
def styleOutline (lines : List LineRec) (body : Style) : List OutlineEntry :=
  emitLoop (mkLevelMap (sortStylesDesc (headingStylesOf lines body)))
    (headingLinesOf lines body) []

/-- The function process_by_styles (src/main.py lines 66-120). -/
def process_by_styles (doc : Doc) : List OutlineEntry :=
  let lines := extractLines doc
  match bodyStyleOf lines with
  | none => []
  | some body_style => styleOutline lines body_style

/-- The value of q times 0.95, built with `mkRat` so it evaluates by
integer arithmetic: `mkRat` normalizes, so this is exactly the rational
product of `q` and 19 / 20. -/
def qScale95 (q : ℚ) : ℚ := mkRat (19 * q.num) (20 * q.den)

/-- The title-candidate blacklist of src/main.py line 153. -/
def titleBlacklist : List (List Char) :=
  ["istqb".toList, "topjump".toList, "www.topjump.com".toList,
    "you".toList ++ [Char.ofNat 39] ++ "re invited to a party".toList]

/-- The function extract_title (src/main.py lines 122-156).  Provider font
sizes are rationals here; the binary floating point of the source is
modelled by exact rational arithmetic. -/
def extract_title (doc : Doc) : List Char :=
  match doc.pages with
  | [] => []
  | page_one :: _ =>
    let spans := page_one.flatMap
      (fun b => if b.btype = 0 then b.lines.flatMap PdfLine.spans else [])
    let max_font_size : ℚ :=
      spans.foldl (fun m s => if 1 < (pyStrip s.text).length then max m s.size else m) 0
    if max_font_size == 0 then []
    else
      joinWith ' ' (spans.filterMap
        (fun s =>
          if decide (pyRound (qScale95 max_font_size) ≤ pyRound s.size) then
            let text := clean_text s.text
            if decide (2 < text.length) && !(titleBlacklist.contains (listLower text)) then
              some text
            else none
          else none))

/-- Key comparison of the final sort on the pair of page and level
(src/main.py line 188): levels compare as Python strings, i.e.
lexicographically by codepoint. -/
def lexLe : List Char → List Char → Bool
  | [], _ => true
  | _ :: _, [] => false
  | a :: as, b :: bs => decide (a < b) || (a == b && lexLe as bs)

/-- The sort relation of src/main.py line 188. -/
def outlineKeyR (x y : OutlineEntry) : Prop :=
  (decide (x.page < y.page) || (x.page == y.page && lexLe x.level y.level)) = true

instance : DecidableRel outlineKeyR := fun x y =>
  Bool.decEq (decide (x.page < y.page) || (x.page == y.page && lexLe x.level y.level)) true

/-- The stable outline sort (src/main.py line 188). -/
def sortOutline (outline : List OutlineEntry) : List OutlineEntry :=
  List.insertionSort outlineKeyR outline

/-- The title-subsumption filter (src/main.py lines 182-184). -/
def titleFilter (title : List Char) (outline : List OutlineEntry) : List OutlineEntry :=
  if !title.isEmpty then outline.filter (fun it => !(containsSub title it.text))
  else outline

/-- The final sort and page decrement (src/main.py lines 187-190). -/
def finalizeOutline (outline : List OutlineEntry) : List OutlineEntry :=
  if !outline.isEmpty then
    (sortOutline outline).map (fun it => { it with page := it.page - 1 })
  else outline

/-- The strategy decision (src/main.py lines 172-177): `toc and len(toc) > 3`. -/
def strategyOutline (doc : Doc) : List OutlineEntry :=
  if !doc.toc.isEmpty && decide (3 < doc.toc.length) then process_from_toc doc
  else process_by_styles doc

/-- The controller parse_pdf_to_outline (src/main.py lines 159-192). -/
def parse_pdf_to_outline (doc : Doc) : OutlineDoc :=
  if doc.pages.length = 0 then { title := [], outline := [] }
  else
    let outline1 := strategyOutline doc
    let title := extract_title doc
    { title := title, outline := finalizeOutline (titleFilter title outline1) }

/-- The TOC-path mapping as the specification words it: each TOC entry maps
1:1 to an outline entry with level `"H" + level` and normalized title,
entries whose normalized title is purely numeric dropped. -/
def tocOutlineSpec (toc : List TocEntry) : List OutlineEntry :=
  (toc.filter (fun t => !(pyIsDigit (clean_text t.title)))).map
    (fun t => { level := hLabel t.level, text := clean_text t.title, page := t.page })

/-! ## Helper lemmas -/

lemma listStartsWith_iff (pat : List Char) : ∀ text,
    listStartsWith pat text = true ↔ ∃ r, text = pat ++ r := by
  induction pat with
  | nil => intro text; simp [listStartsWith]
  | cons a as ih =>
    intro text
    cases text with
    | nil =>
      simp only [listStartsWith, List.cons_append]
      constructor
      · intro h; cases h
      · rintro ⟨r, h⟩; cases h
    | cons b bs =>
      simp only [listStartsWith, Bool.and_eq_true, beq_iff_eq, ih, List.cons_append,
        List.cons.injEq]
      constructor
      · rintro ⟨rfl, r, rfl⟩; exact ⟨r, rfl, rfl⟩
      · rintro ⟨r, rfl, rfl⟩; exact ⟨rfl, r, rfl⟩

lemma containsSub_iff : ∀ text pat : List Char,
    containsSub text pat = true ↔ ∃ l r, text = l ++ pat ++ r := by
  intro text
  induction text with
  | nil =>
    intro pat
    simp only [containsSub, List.isEmpty_iff]
    constructor
    · rintro rfl; exact ⟨[], [], rfl⟩
    · rintro ⟨l, r, h⟩
      rcases List.append_eq_nil.mp (List.append_eq_nil.mp h.symm).1 with ⟨-, h2⟩
      exact h2
  | cons c cs ih =>
    intro pat
    simp only [containsSub, Bool.or_eq_true, listStartsWith_iff pat, ih]
    constructor
    · rintro (⟨r, hr⟩ | ⟨l, r, rfl⟩)
      · exact ⟨[], r, by simpa using hr⟩
      · exact ⟨c :: l, r, rfl⟩
    · rintro ⟨l, r, h⟩
      cases l with
      | nil => exact Or.inl ⟨r, by simpa using h⟩
      | cons x xs =>
        rcases List.cons.injEq .. ▸ h with ⟨rfl, h2⟩
        exact Or.inr ⟨xs, r, h2⟩

lemma toc_foldl_go (ts : List TocEntry) (acc : List OutlineEntry) :
    ts.foldl
      (fun outline t =>
        let clean_title := clean_text t.title
        if !(pyIsDigit clean_title) then
          outline ++ [{ level := hLabel t.level, text := clean_title, page := t.page }]
        else outline) acc = acc ++ tocOutlineSpec ts := by
  induction ts generalizing acc with
  | nil => simp [tocOutlineSpec]
  | cons t ts ih =>
    simp only [List.foldl_cons]
    rw [ih]
    unfold tocOutlineSpec
    simp only [List.filter_cons]
    by_cases h : pyIsDigit (clean_text t.title) <;> simp [h]

lemma process_from_toc_eq (doc : Doc) : process_from_toc doc = tocOutlineSpec doc.toc := by
  unfold process_from_toc
  simpa using toc_foldl_go doc.toc []

lemma ends_dot (l : List Char) : endsSentencePunct (l ++ ['.']) = true := by
  simp [endsSentencePunct, List.getLast?_concat]

/-! ## Claims -/

/-- C1: for a document whose embedded TOC has more than 3 entries, the
strategy selector takes the TOC path: the pre-postprocessing outline is the
TOC mapped 1:1 (level "H"+level, normalized title, page as is) minus
entries whose normalized title is purely numeric, and the result does not
depend on the pages at all (style classification is never invoked). -/
theorem toc_path_one_to_one (doc : Doc) (h : 3 < doc.toc.length) :
    strategyOutline doc = process_from_toc doc ∧
    process_from_toc doc = tocOutlineSpec doc.toc ∧
    ∀ pages, strategyOutline { pages := pages, toc := doc.toc } = strategyOutline doc := by
  have hne : doc.toc ≠ [] := by
    intro hnil; rw [hnil] at h; simp at h
  have hcond : (!doc.toc.isEmpty && decide (3 < doc.toc.length)) = true := by
    simp [List.isEmpty_iff, hne, h]
  refine ⟨?_, process_from_toc_eq doc, ?_⟩
  · unfold strategyOutline
    simp only [hcond, if_true]
  · intro pages
    unfold strategyOutline
    simp only [hcond, if_true]
    unfold process_from_toc
    rfl

def exDocC1 : Doc :=
  ⟨[], [⟨1, "Intro".toList, 1⟩, ⟨2, "Background".toList, 2⟩,
    ⟨1, "42".toList, 3⟩, ⟨1, "Methods".toList, 4⟩]⟩

theorem toc_path_one_to_one_witness :
    strategyOutline exDocC1 = process_from_toc exDocC1 ∧
    process_from_toc exDocC1 =
      [⟨hLabel 1, "Intro".toList, 1⟩, ⟨hLabel 2, "Background".toList, 2⟩,
        ⟨hLabel 1, "Methods".toList, 4⟩] :=
  ⟨(toc_path_one_to_one exDocC1 (by decide)).1, by decide⟩

/-- C5: with a non-empty title, exactly the outline entries whose text is a
substring of the title are removed; with an empty title the filter is the
identity. -/
theorem title_subsumption_filter (title : List Char) (outline : List OutlineEntry) :
    (title ≠ [] →
      ∀ e, e ∈ titleFilter title outline ↔
        (e ∈ outline ∧ ¬ ∃ l r, title = l ++ e.text ++ r)) ∧
    (title = [] → titleFilter title outline = outline) := by
  constructor
  · intro ht e
    have hne : (!title.isEmpty) = true := by
      cases title with
      | nil => exact absurd rfl ht
      | cons a as => rfl
    unfold titleFilter
    rw [if_pos hne, List.mem_filter]
    constructor
    · rintro ⟨hmem, hf⟩
      refine ⟨hmem, fun hex => ?_⟩
      rw [Bool.not_eq_true'] at hf
      rw [(containsSub_iff title e.text).mpr hex] at hf
      cases hf
    · rintro ⟨hmem, hnex⟩
      refine ⟨hmem, ?_⟩
      rw [Bool.not_eq_true']
      cases hcs : containsSub title e.text
      · rfl
      · exact absurd ((containsSub_iff title e.text).mp hcs) hnex
  · rintro rfl
    simp [titleFilter]

def exTitleC5 : List Char := "Annual Report 2024".toList

def exOutlineC5 : List OutlineEntry :=
  [⟨"H1".toList, "Report".toList, 1⟩, ⟨"H1".toList, "Methods".toList, 2⟩]

theorem title_subsumption_filter_witness :
    (titleFilter exTitleC5 exOutlineC5).map OutlineEntry.text = ["Methods".toList] ∧
    (⟨"H1".toList, "Report".toList, 1⟩ : OutlineEntry) ∉ titleFilter exTitleC5 exOutlineC5 :=
  ⟨by decide, fun hm =>
    (((title_subsumption_filter exTitleC5 exOutlineC5).1 (by decide)
      ⟨"H1".toList, "Report".toList, 1⟩).mp hm).2
      ⟨"Annual ".toList, " 2024".toList, by decide⟩⟩

/-- C6: the final post-processing step decrements the page number of every
entry exactly once (the output is a permutation of the input with each page
decremented), and an entry with internal page 1 yields an output entry with
page 0. -/
theorem page_decrement_once (outline : List OutlineEntry) :
    ((finalizeOutline outline).map (fun e => (e.level, e.text, e.page))).Perm
      (outline.map (fun e => (e.level, e.text, e.page - 1))) ∧
    ∀ e ∈ outline, e.page = 1 →
      ∃ e2 ∈ finalizeOutline outline,
        e2.level = e.level ∧ e2.text = e.text ∧ e2.page = 0 := by
  have hperm : ((finalizeOutline outline).map (fun e => (e.level, e.text, e.page))).Perm
      (outline.map (fun e => (e.level, e.text, e.page - 1))) := by
    unfold finalizeOutline
    by_cases h : outline.isEmpty
    · rw [List.isEmpty_iff.mp h]; simp
    · have hb : (!outline.isEmpty) = true := by simp [h]
      rw [if_pos hb, List.map_map]
      have hp : (sortOutline outline).Perm outline := List.perm_insertionSort _ _
      exact hp.map (fun e => (e.level, e.text, e.page - 1))
  refine ⟨hperm, ?_⟩
  intro e he hpage
  have h1 : (e.level, e.text, e.page - 1) ∈
      outline.map (fun e => (e.level, e.text, e.page - 1)) :=
    List.mem_map_of_mem _ he
  have h2 := hperm.symm.subset h1
  rcases List.mem_map.mp h2 with ⟨e2, he2, heq⟩
  simp only [Prod.mk.injEq] at heq
  obtain ⟨hl, ht, hp⟩ := heq
  exact ⟨e2, he2, hl, ht, by rw [hp, hpage]; decide⟩

def exOutlineC6 : List OutlineEntry := [⟨"H1".toList, "Intro".toList, 1⟩]

theorem page_decrement_once_witness :
    ∃ e2 ∈ finalizeOutline exOutlineC6,
      e2.level = "H1".toList ∧ e2.text = "Intro".toList ∧ e2.page = 0 :=
  (page_decrement_once exOutlineC6).2 ⟨"H1".toList, "Intro".toList, 1⟩ (by decide) rfl

/-- C7: the heading classifier never accepts text ending in a dot, colon or
comma (rule 3), and a block it accepts becomes rejected once a terminal
period is appended, everything else unchanged. -/
theorem terminal_punctuation_rejects (text : List Char) (style body_style : Style) :
    (endsSentencePunct text = true →
      is_likely_heading_by_style text style body_style = false) ∧
    (is_likely_heading_by_style text style body_style = true →
      is_likely_heading_by_style (text ++ ['.']) style body_style = false) := by
  constructor
  · intro h
    simp [is_likely_heading_by_style, h]
  · intro hacc
    simp [is_likely_heading_by_style, ends_dot]

theorem terminal_punctuation_rejects_witness :
    is_likely_heading_by_style ("Introduction".toList ++ ['.']) (16, true) (11, false) = false ∧
    is_likely_heading_by_style ("Introduction".toList) (16, true) (11, false) = true :=
  ⟨(terminal_punctuation_rejects ("Introduction".toList) (16, true) (11, false)).2 (by decide),
    by decide⟩

lemma extractLines_nil (doc : Doc) (hb : ∀ p ∈ doc.pages, p = []) :
    extractLines doc = [] := by
  unfold extractLines
  have h : ∀ (ps : List (List PdfBlock)) (n : ℕ), (∀ p ∈ ps, p = []) →
      (List.enumFrom n ps).flatMap
        (fun pp => pp.2.flatMap
          (fun b =>
            if b.btype = 0 then b.lines.filterMap (lineRecOf ((pp.1 : ℤ) + 1))
            else [])) = [] := by
    intro ps
    induction ps with
    | nil => intro n _; rfl
    | cons p ps ih =>
      intro n hps
      have hp : p = [] := hps p (by simp)
      rw [List.enumFrom]
      rw [List.flatMap_cons]
      simp only [hp, List.flatMap_nil, List.nil_append]
      exact ih (n + 1) (fun q hq => hps q (by simp [hq]))
  exact h doc.pages 0 hb

lemma titleFilter_nil (t : List Char) : titleFilter t [] = [] := by
  unfold titleFilter
  split <;> simp

/-- C9: a document with pages but no text blocks is not an error: the style
path yields an empty outline and the parse result is the (still attempted)
title extraction together with an empty outline. -/
theorem empty_blocks_empty_outline (doc : Doc) (hp : doc.pages ≠ [])
    (hb : ∀ p ∈ doc.pages, p = []) (ht : doc.toc.length ≤ 3) :
    process_by_styles doc = [] ∧
    parse_pdf_to_outline doc = { title := extract_title doc, outline := [] } := by
  have hext : extractLines doc = [] := extractLines_nil doc hb
  have hsty : process_by_styles doc = [] := by
    unfold process_by_styles
    rw [hext]
    rfl
  refine ⟨hsty, ?_⟩
  have hcond : (!doc.toc.isEmpty && decide (3 < doc.toc.length)) = false := by
    have h3 : ¬ (3 < doc.toc.length) := by omega
    simp [h3]
  have hstrat : strategyOutline doc = [] := by
    unfold strategyOutline
    simp only [hcond, Bool.false_eq_true, if_false]
    exact hsty
  unfold parse_pdf_to_outline
  rw [if_neg (by simpa using hp)]
  simp only [hstrat, titleFilter_nil]
  rfl

def exDocC9 : Doc := ⟨[[]], []⟩

theorem empty_blocks_empty_outline_witness :
    (process_by_styles exDocC9 = [] ∧
      parse_pdf_to_outline exDocC9 = { title := extract_title exDocC9, outline := [] }) ∧
    extract_title exDocC9 = [] :=
  ⟨empty_blocks_empty_outline exDocC9 (by decide) (by decide) (by decide), by decide⟩

lemma styleLe_total (a b : Style) : styleLe a b = true ∨ styleLe b a = true := by
  rcases a with ⟨x, p⟩
  rcases b with ⟨y, q⟩
  simp only [styleLe, Bool.or_eq_true, Bool.and_eq_true, beq_iff_eq, decide_eq_true_eq]
  rcases lt_trichotomy x y with h | h | h
  · exact Or.inl (Or.inl h)
  · subst h
    cases p <;> cases q <;> simp
  · exact Or.inr (Or.inl h)

lemma styleLe_trans (a b c : Style) (h1 : styleLe a b = true) (h2 : styleLe b c = true) :
    styleLe a c = true := by
  rcases a with ⟨x, p⟩
  rcases b with ⟨y, q⟩
  rcases c with ⟨z, r⟩
  simp only [styleLe, Bool.or_eq_true, Bool.and_eq_true, beq_iff_eq, decide_eq_true_eq] at *
  rcases h1 with h1 | ⟨rfl, hb1⟩ <;> rcases h2 with h2 | ⟨rfl, hb2⟩
  · exact Or.inl (by omega)
  · exact Or.inl h1
  · exact Or.inl h2
  · exact Or.inr ⟨rfl, by cases p <;> cases q <;> cases r <;> simp_all⟩

instance : IsTotal Style styleDescR :=
  ⟨fun a b => (styleLe_total a b).symm.imp id id⟩

instance : IsTrans Style styleDescR :=
  ⟨fun a b c h1 h2 => styleLe_trans c b a h2 h1⟩

lemma levelLookup_get (l : List Style) (hnd : l.Nodup) :
    ∀ (k i : ℕ) (hi : i < l.length),
      List.find? (fun p => p.1 == l.get ⟨i, hi⟩)
        ((List.enumFrom k l).map (fun p => (p.2, hLabel (p.1 + 1)))) =
        some (l.get ⟨i, hi⟩, hLabel (k + i + 1)) := by
  induction l with
  | nil => intro k i hi; exact absurd hi (by simp)
  | cons a l ih =>
    intro k i hi
    cases i with
    | zero =>
      rw [List.enumFrom]
      simp [List.find?_cons_of_pos]
    | succ i =>
      have hil : i < l.length := by
        have h2 : i + 1 < l.length + 1 := by simpa using hi
        omega
      have hne : ¬ a = l.get ⟨i, hil⟩ := by
        intro hEq
        exact (List.nodup_cons.mp hnd).1 (hEq ▸ List.get_mem l i hil)
      rw [List.enumFrom, List.map_cons]
      simp only [List.get_cons_succ]
      rw [List.find?_cons_of_neg]
      · rw [ih (List.nodup_cons.mp hnd).2 (k + 1) i hil]
        have harith : k + 1 + i + 1 = k + (i + 1) + 1 := by omega
        rw [harith]
      · simpa using hne

/-- C4: the level map sorts the distinct accepted styles by (size, bold)
descending (`styleDescR` is the descending key order), assigns `H(i+1)` to
the i-th sorted style, and at equal size a bold style gets a strictly
smaller-numbered level than the non-bold one. -/
theorem level_map_order (ss : List Style) (hnd : ss.Nodup) (sz : ℤ)
    (hb : (sz, true) ∈ ss) (hnb : (sz, false) ∈ ss) :
    (sortStylesDesc ss).Pairwise styleDescR ∧
    (∀ i (hi : i < (sortStylesDesc ss).length),
      levelLookup (mkLevelMap (sortStylesDesc ss)) ((sortStylesDesc ss).get ⟨i, hi⟩) =
        hLabel (i + 1)) ∧
    ∃ i j : Fin (sortStylesDesc ss).length, (i : ℕ) < (j : ℕ) ∧
      (sortStylesDesc ss).get i = (sz, true) ∧ (sortStylesDesc ss).get j = (sz, false) := by
  have hperm : (sortStylesDesc ss).Perm ss := List.perm_insertionSort _ _
  have hnd2 : (sortStylesDesc ss).Nodup := hperm.nodup_iff.mpr hnd
  have hsorted : (sortStylesDesc ss).Pairwise styleDescR := List.sorted_insertionSort _ _
  refine ⟨hsorted, ?_, ?_⟩
  · intro i hi
    unfold levelLookup mkLevelMap
    rw [show (sortStylesDesc ss).enum = List.enumFrom 0 (sortStylesDesc ss) from rfl]
    rw [levelLookup_get _ hnd2 0 i hi]
    simp
  · have hbL : (sz, true) ∈ sortStylesDesc ss := hperm.mem_iff.mpr hb
    have hnbL : (sz, false) ∈ sortStylesDesc ss := hperm.mem_iff.mpr hnb
    obtain ⟨i, hi⟩ := List.mem_iff_get.mp hbL
    obtain ⟨j, hj⟩ := List.mem_iff_get.mp hnbL
    refine ⟨i, j, ?_, hi, hj⟩
    have hne : (i : ℕ) ≠ (j : ℕ) := by
      intro hEq
      rw [Fin.ext hEq, hj] at hi
      simp at hi
    rcases Nat.lt_or_ge (i : ℕ) (j : ℕ) with h | h
    · exact h
    · exfalso
      have hlt : (j : ℕ) < (i : ℕ) := lt_of_le_of_ne h (Ne.symm hne)
      have hpair := List.pairwise_iff_get.mp hsorted j i hlt
      rw [hi, hj] at hpair
      unfold styleDescR styleLe at hpair
      simp at hpair

def exStylesC4 : List Style := [(18, false), (24, false), (18, true)]

theorem level_map_order_witness :
    (∃ i j : Fin (sortStylesDesc exStylesC4).length, (i : ℕ) < (j : ℕ) ∧
      (sortStylesDesc exStylesC4).get i = (18, true) ∧
      (sortStylesDesc exStylesC4).get j = (18, false)) ∧
    (sortStylesDesc exStylesC4 = [(24, false), (18, true), (18, false)] ∧
      levelLookup (mkLevelMap (sortStylesDesc exStylesC4)) (24, false) = hLabel 1 ∧
      levelLookup (mkLevelMap (sortStylesDesc exStylesC4)) (18, true) = hLabel 2 ∧
      levelLookup (mkLevelMap (sortStylesDesc exStylesC4)) (18, false) = hLabel 3) :=
  ⟨(level_map_order exStylesC4 (by decide) 18 (by decide) (by decide)).2.2, by decide⟩

lemma emitLoop_mem_level (lm : List (Style × List Char)) :
    ∀ (hl : List LineRec) (seen : List (List Char)) (e : OutlineEntry),
      e ∈ emitLoop lm hl seen →
      ∃ ln ∈ hl, e.level = levelLookup lm ln.style ∧ e.text = ln.text ∧ e.page = ln.page := by
  intro hl
  induction hl with
  | nil => intro seen e he; cases he
  | cons ln rest ih =>
    intro seen e he
    simp only [emitLoop] at he
    by_cases h : ln.text ∈ seen
    · rw [if_pos h] at he
      obtain ⟨l2, hl2, hprop⟩ := ih seen e he
      exact ⟨l2, List.mem_cons_of_mem _ hl2, hprop⟩
    · rw [if_neg h] at he
      rcases List.mem_cons.mp he with rfl | he2
      · exact ⟨ln, List.mem_cons_self _ _, rfl, rfl, rfl⟩
      · obtain ⟨l2, hl2, hprop⟩ := ih _ e he2
        exact ⟨l2, List.mem_cons_of_mem _ hl2, hprop⟩

lemma emitLoop_not_seen (lm : List (Style × List Char)) :
    ∀ (hl : List LineRec) (seen : List (List Char)) (e : OutlineEntry),
      e ∈ emitLoop lm hl seen → e.text ∉ seen := by
  intro hl
  induction hl with
  | nil => intro seen e he; cases he
  | cons ln rest ih =>
    intro seen e he
    simp only [emitLoop] at he
    by_cases h : ln.text ∈ seen
    · rw [if_pos h] at he
      exact ih seen e he
    · rw [if_neg h] at he
      rcases List.mem_cons.mp he with rfl | he2
      · exact h
      · have := ih _ e he2
        intro hc
        exact this (List.mem_cons_of_mem _ hc)

lemma emitLoop_nodup (lm : List (Style × List Char)) :
    ∀ (hl : List LineRec) (seen : List (List Char)),
      ((emitLoop lm hl seen).map OutlineEntry.text).Nodup := by
  intro hl
  induction hl with
  | nil => intro seen; simp [emitLoop]
  | cons ln rest ih =>
    intro seen
    simp only [emitLoop]
    by_cases h : ln.text ∈ seen
    · rw [if_pos h]
      exact ih seen
    · rw [if_neg h]
      rw [List.map_cons, List.nodup_cons]
      refine ⟨?_, ih _⟩
      intro hc
      rcases List.mem_map.mp hc with ⟨e, he, heq⟩
      exact emitLoop_not_seen lm rest _ e he (heq ▸ List.mem_cons_self _ _)

lemma emitLoop_find (lm : List (Style × List Char)) :
    ∀ (hl : List LineRec) (seen : List (List Char)) (e : OutlineEntry),
      e ∈ emitLoop lm hl seen →
      ∃ ln, List.find? (fun l2 => l2.text == e.text) hl = some ln ∧
        e.text = ln.text ∧ e.page = ln.page ∧ e.level = levelLookup lm ln.style := by
  intro hl
  induction hl with
  | nil => intro seen e he; cases he
  | cons ln rest ih =>
    intro seen e he
    simp only [emitLoop] at he
    by_cases h : ln.text ∈ seen
    · rw [if_pos h] at he
      have hnotseen := emitLoop_not_seen lm rest seen e he
      have hne : ¬ ln.text = e.text := by
        intro hEq
        exact hnotseen (hEq ▸ h)
      rw [List.find?_cons_of_neg]
      · exact ih seen e he
      · simpa using hne
    · rw [if_neg h] at he
      rcases List.mem_cons.mp he with rfl | he2
      · refine ⟨ln, ?_, rfl, rfl, rfl⟩
        rw [List.find?_cons_of_pos]
        simp
      · have hnotseen := emitLoop_not_seen lm rest _ e he2
        have hne : ¬ ln.text = e.text := by
          intro hEq
          exact hnotseen (hEq ▸ List.mem_cons_self _ _)
        rw [List.find?_cons_of_neg]
        · exact ih _ e he2
        · simpa using hne

lemma emitLoop_covers (lm : List (Style × List Char)) :
    ∀ (hl : List LineRec) (seen : List (List Char)) (ln : LineRec),
      ln ∈ hl → ln.text ∉ seen →
      ∃ e ∈ emitLoop lm hl seen, e.text = ln.text := by
  intro hl
  induction hl with
  | nil => intro seen ln hln _; cases hln
  | cons l2 rest ih =>
    intro seen ln hln hns
    simp only [emitLoop]
    by_cases h : l2.text ∈ seen
    · rw [if_pos h]
      rcases List.mem_cons.mp hln with rfl | hln2
      · exact absurd h hns
      · exact ih seen ln hln2 hns
    · rw [if_neg h]
      rcases List.mem_cons.mp hln with rfl | hln2
      · exact ⟨_, List.mem_cons_self _ _, rfl⟩
      · by_cases heq : ln.text = l2.text
        · exact ⟨_, List.mem_cons_self _ _, heq.symm⟩
        · obtain ⟨e, he, het⟩ := ih (l2.text :: seen) ln hln2 (by simp [heq, hns])
          exact ⟨e, List.mem_cons_of_mem _ he, het⟩

/-- C2 (amended): within the style path the emitted texts are pairwise
distinct; each emitted entry corresponds to the first accepted heading line
carrying its text (hence its first-encountered page), and every accepted
heading line is represented.  The TOC path performs no such deduplication
(see the counterexample). -/
theorem style_path_dedup_first_wins (lines : List LineRec) (body : Style) :
    ((styleOutline lines body).map OutlineEntry.text).Nodup ∧
    (∀ e ∈ styleOutline lines body,
      ∃ ln, List.find? (fun l2 => l2.text == e.text) (headingLinesOf lines body) = some ln ∧
        e.text = ln.text ∧ e.page = ln.page) ∧
    (∀ ln ∈ headingLinesOf lines body, ∃ e ∈ styleOutline lines body, e.text = ln.text) := by
  unfold styleOutline
  refine ⟨emitLoop_nodup _ _ _, ?_, ?_⟩
  · intro e he
    obtain ⟨ln, hfind, ht, hp, -⟩ := emitLoop_find _ _ _ e he
    exact ⟨ln, hfind, ht, hp⟩
  · intro ln hln
    exact emitLoop_covers _ _ _ ln hln (by simp)

def exLinesC2 : List LineRec :=
  [⟨"Methods".toList, (16, true), 1⟩, ⟨"Methods".toList, (16, true), 2⟩]

theorem style_path_dedup_first_wins_witness :
    ((styleOutline exLinesC2 (11, false)).map OutlineEntry.text).Nodup ∧
    (styleOutline exLinesC2 (11, false)).map (fun e => (e.text, e.page)) =
      [("Methods".toList, (1 : ℤ))] :=
  ⟨(style_path_dedup_first_wins exLinesC2 (11, false)).1, by decide⟩

def exDocC2 : Doc :=
  ⟨[[]], [⟨1, "A".toList, 1⟩, ⟨1, "A".toList, 1⟩, ⟨1, "B".toList, 1⟩, ⟨1, "C".toList, 1⟩]⟩

/-- C2 counterexample: a document with an embedded TOC of 4 entries, two of
which share the title "A", produces a final outline whose text values are
not pairwise distinct: the TOC path does not deduplicate. -/
theorem outline_texts_not_unique_counterexample :
    ¬ ((parse_pdf_to_outline exDocC2).outline.map OutlineEntry.text).Nodup := by decide

lemma keyOrderAux_mem {α : Type} [DecidableEq α] :
    ∀ (l : List α) (seen : List α) (a : α), a ∈ l → a ∉ seen → a ∈ keyOrderAux seen l := by
  intro l
  induction l with
  | nil => intro seen a ha _; cases ha
  | cons b bs ih =>
    intro seen a ha hns
    simp only [keyOrderAux]
    by_cases hb : b ∈ seen
    · rw [if_pos hb]
      rcases List.mem_cons.mp ha with rfl | ha2
      · exact absurd hb hns
      · exact ih seen a ha2 hns
    · rw [if_neg hb]
      rcases List.mem_cons.mp ha with rfl | ha2
      · exact List.mem_cons_self _ _
      · by_cases hab : a = b
        · subst hab; exact List.mem_cons_self _ _
        · exact List.mem_cons_of_mem _ (ih (b :: seen) a ha2 (by simp [hab, hns]))

lemma keyOrder_mem {α : Type} [DecidableEq α] (l : List α) (a : α) (ha : a ∈ l) :
    a ∈ keyOrder l :=
  keyOrderAux_mem l [] a ha (by simp)

lemma find_enumFrom_of_mem : ∀ (l : List Style) (s : Style), s ∈ l → ∀ k, ∃ i, i < l.length ∧
    List.find? (fun p => p.1 == s) ((List.enumFrom k l).map (fun p => (p.2, hLabel (p.1 + 1)))) =
      some (s, hLabel (k + i + 1)) := by
  intro l
  induction l with
  | nil => intro s hs; cases hs
  | cons a bs ih =>
    intro s hs k
    by_cases h : a = s
    · subst h
      refine ⟨0, by simp, ?_⟩
      rw [List.enumFrom, List.map_cons, List.find?_cons_of_pos]
      simp
    · have hs2 : s ∈ bs := by
        rcases List.mem_cons.mp hs with rfl | h2
        · exact absurd rfl h
        · exact h2
      obtain ⟨i, hi, hfind⟩ := ih s hs2 (k + 1)
      refine ⟨i + 1, by simpa using Nat.succ_lt_succ hi, ?_⟩
      rw [List.enumFrom, List.map_cons, List.find?_cons_of_neg]
      · rw [hfind]
        have harith : k + 1 + i + 1 = k + (i + 1) + 1 := by omega
        rw [harith]
      · simpa using h

lemma levelLookup_of_mem (l : List Style) (s : Style) (hs : s ∈ l) :
    ∃ i, i < l.length ∧ levelLookup (mkLevelMap l) s = hLabel (i + 1) := by
  obtain ⟨i, hi, hfind⟩ := find_enumFrom_of_mem l s hs 0
  refine ⟨i, hi, ?_⟩
  unfold levelLookup mkLevelMap
  rw [show l.enum = List.enumFrom 0 l from rfl, hfind]
  simp

/-- C10: the style of every emitted entry is a key of the level map, so
every emitted level label is `H(i+1)` for some index `i` into the sorted
list of distinct accepted heading styles; the `H9` default of the lookup is
never used. -/
theorem emitted_levels_in_range (lines : List LineRec) (body : Style) :
    ∀ e ∈ styleOutline lines body,
      ∃ i, i < (sortStylesDesc (headingStylesOf lines body)).length ∧
        e.level = hLabel (i + 1) := by
  intro e he
  unfold styleOutline at he
  obtain ⟨ln, hln, hlevel, -, -⟩ := emitLoop_mem_level _ _ _ e he
  have hstyle : ln.style ∈ headingStylesOf lines body := by
    unfold headingStylesOf
    exact keyOrder_mem _ _ (List.mem_map_of_mem LineRec.style hln)
  have hsorted : ln.style ∈ sortStylesDesc (headingStylesOf lines body) :=
    (List.perm_insertionSort _ _).mem_iff.mpr hstyle
  obtain ⟨i, hi, hlook⟩ := levelLookup_of_mem _ ln.style hsorted
  exact ⟨i, hi, by rw [hlevel, hlook]⟩

def exLinesC10 : List LineRec := [⟨"Overview".toList, (16, true), 1⟩]

theorem emitted_levels_in_range_witness :
    ∃ i, i < (sortStylesDesc (headingStylesOf exLinesC10 (11, false))).length ∧
      (⟨hLabel 1, "Overview".toList, 1⟩ : OutlineEntry).level = hLabel (i + 1) :=
  emitted_levels_in_range exLinesC10 (11, false)
    ⟨hLabel 1, "Overview".toList, 1⟩ (by decide)

/-- C8 (amended): the style path has no table-of-contents page override: a
line is accepted exactly by the per-line classifier rules, independently of
the other blocks on its page, so on a page holding a "table of contents"
marker block every other rule-satisfying block is accepted too. -/
theorem classifier_no_page_override (lines : List LineRec) (body : Style) (ln : LineRec)
    (hmem : ln ∈ lines) (hacc : is_likely_heading_by_style ln.text ln.style body = true) :
    ln ∈ headingLinesOf lines body ∧
    ∀ l2 ∈ headingLinesOf lines body,
      is_likely_heading_by_style l2.text l2.style body = true := by
  unfold headingLinesOf
  exact ⟨List.mem_filter.mpr ⟨hmem, hacc⟩, fun l2 h2 => (List.mem_filter.mp h2).2⟩

def exBlockC8 (t : String) (sz : ℚ) (f : String) : PdfBlock :=
  ⟨0, [⟨[⟨t.toList, sz, f.toList⟩]⟩]⟩

def exDocC8 : Doc :=
  ⟨[[exBlockC8 "Table of Contents" 16 "Arial-Bold",
     exBlockC8 "Introduction" 16 "Arial-Bold",
     ⟨0, [⟨[⟨"some body text one".toList, 11, "Arial".toList⟩]⟩,
          ⟨[⟨"some body text two".toList, 11, "Arial".toList⟩]⟩,
          ⟨[⟨"some body text three".toList, 11, "Arial".toList⟩]⟩]⟩]], []⟩

/-- C8 counterexample: page 1 of `exDocC8` contains a block whose text
contains "table of contents" case-insensitively, yet the style path accepts
the distinct block "Introduction" from the same page as well, so it does
not accept only the marker block. -/
theorem toc_marker_page_not_exclusive :
    (process_by_styles exDocC8).map OutlineEntry.text =
      ["Table of Contents".toList, "Introduction".toList] ∧
    containsSub (listLower ("Table of Contents".toList)) ("table of contents".toList) = true :=
  ⟨by decide, by decide⟩

theorem classifier_no_page_override_witness :
    (⟨"Introduction".toList, (16, true), 1⟩ : LineRec) ∈
      headingLinesOf (extractLines exDocC8) (11, false) :=
  (classifier_no_page_override (extractLines exDocC8) (11, false)
    ⟨"Introduction".toList, (16, true), 1⟩ (by decide) (by decide)).1

/-- No two adjacent whitespace characters. -/
def noWsPair (a b : Char) : Prop := ¬(pyWs a = true ∧ pyWs b = true)

lemma collapseWsAux_mem : ∀ (l : List Char) (b : Bool) (c : Char),
    c ∈ collapseWsAux b l → c ∈ l ∨ c = ' ' := by
  intro l
  induction l with
  | nil => intro b c h; cases h
  | cons d ds ih =>
    intro b c h
    simp only [collapseWsAux] at h
    by_cases hd : pyWs d = true
    · rw [if_pos hd] at h
      cases b with
      | false =>
        rw [if_neg (by simp)] at h
        rcases List.mem_cons.mp h with rfl | h2
        · exact Or.inr rfl
        · rcases ih true c h2 with h3 | h3
          · exact Or.inl (List.mem_cons_of_mem _ h3)
          · exact Or.inr h3
      | true =>
        rw [if_pos rfl] at h
        rcases ih true c h with h3 | h3
        · exact Or.inl (List.mem_cons_of_mem _ h3)
        · exact Or.inr h3
    · rw [if_neg hd] at h
      rcases List.mem_cons.mp h with rfl | h2
      · exact Or.inl (List.mem_cons_self _ _)
      · rcases ih false c h2 with h3 | h3
        · exact Or.inl (List.mem_cons_of_mem _ h3)
        · exact Or.inr h3

lemma collapseWsAux_allSpace : ∀ (l : List Char) (b : Bool) (c : Char),
    c ∈ collapseWsAux b l → pyWs c = true → c = ' ' := by
  intro l
  induction l with
  | nil => intro b c h; cases h
  | cons d ds ih =>
    intro b c h hw
    simp only [collapseWsAux] at h
    by_cases hd : pyWs d = true
    · rw [if_pos hd] at h
      cases b with
      | false =>
        rw [if_neg (by simp)] at h
        rcases List.mem_cons.mp h with rfl | h2
        · rfl
        · exact ih true c h2 hw
      | true =>
        rw [if_pos rfl] at h
        exact ih true c h hw
    · rw [if_neg hd] at h
      rcases List.mem_cons.mp h with rfl | h2
      · exact absurd hw hd
      · exact ih false c h2 hw

lemma collapseWsAux_head : ∀ (l : List Char) (c : Char) (cs : List Char),
    collapseWsAux true l = c :: cs → pyWs c = false := by
  intro l
  induction l with
  | nil => intro c cs h; cases h
  | cons d ds ih =>
    intro c cs h
    simp only [collapseWsAux] at h
    by_cases hd : pyWs d = true
    · rw [if_pos hd] at h
      rw [if_true] at h
      exact ih c cs h
    · rw [if_neg hd] at h
      obtain ⟨rfl, -⟩ := List.cons.injEq .. ▸ h
      cases hpw : pyWs d with
      | false => rfl
      | true => exact absurd hpw hd

lemma collapseWsAux_chain : ∀ (l : List Char) (b : Bool),
    List.Chain' noWsPair (collapseWsAux b l) := by
  intro l
  induction l with
  | nil => intro b; exact List.chain'_nil
  | cons d ds ih =>
    intro b
    simp only [collapseWsAux]
    by_cases hd : pyWs d = true
    · rw [if_pos hd]
      cases b with
      | true => rw [if_pos rfl]; exact ih true
      | false =>
        rw [if_neg (by simp)]
        rw [List.chain'_cons']
        refine ⟨?_, ih true⟩
        intro y hy
        have hyw : pyWs y = false := by
          cases hhead : collapseWsAux true ds with
          | nil => rw [hhead] at hy; cases hy
          | cons c cs =>
            rw [hhead] at hy
            have hcy : c = y := by simpa using hy
            rw [← hcy]
            exact collapseWsAux_head ds c cs hhead
        intro hpair
        rw [hyw] at hpair
        cases hpair.2
    · rw [if_neg hd]
      rw [List.chain'_cons']
      exact ⟨fun y _ hpair => hd hpair.1, ih false⟩

lemma collapseWsAux_flag (l : List Char)
    (h : ∀ c, l.head? = some c → pyWs c = false) :
    collapseWsAux true l = collapseWsAux false l := by
  cases l with
  | nil => rfl
  | cons e es =>
    have he : pyWs e = false := h e rfl
    simp [collapseWsAux, he]

lemma collapseWsAux_id : ∀ (l : List Char),
    (∀ c ∈ l, pyWs c = true → c = ' ') → List.Chain' noWsPair l →
    collapseWsAux false l = l := by
  intro l
  induction l with
  | nil => intro _ _; rfl
  | cons d ds ih =>
    intro hsp hch
    simp only [collapseWsAux]
    by_cases hd : pyWs d = true
    · rw [if_pos hd, if_neg (show ¬(false = true) by simp)]
      have hd2 : d = ' ' := hsp d (List.mem_cons_self _ _) hd
      have hdshead : ∀ c, ds.head? = some c → pyWs c = false := by
        intro c hc
        cases ds with
        | nil => cases hc
        | cons e es =>
          have hce : e = c := by simpa using hc
          have hrel := (List.chain'_cons'.mp hch).1 e rfl
          subst hce
          cases hpw : pyWs e with
          | false => rfl
          | true => exact absurd ⟨hd, hpw⟩ hrel
      rw [collapseWsAux_flag ds hdshead]
      rw [ih (fun c hc => hsp c (List.mem_cons_of_mem _ hc)) (List.chain'_cons'.mp hch).2]
      rw [hd2]
    · rw [if_neg hd]
      congr 1
      exact ih (fun c hc => hsp c (List.mem_cons_of_mem _ hc)) (List.chain'_cons'.mp hch).2

lemma dropWhile_head_pyWs : ∀ (l : List Char) (c : Char),
    (l.dropWhile pyWs).head? = some c → pyWs c = false := by
  intro l
  induction l with
  | nil => intro c h; cases h
  | cons d ds ih =>
    intro c h
    rw [List.dropWhile_cons] at h
    by_cases hd : pyWs d = true
    · rw [if_pos hd] at h
      exact ih c h
    · rw [if_neg hd] at h
      have : d = c := by simpa using h
      subst this
      cases hpw : pyWs d with
      | false => rfl
      | true => exact absurd hpw hd

lemma dropWhile_id_of_head (l : List Char)
    (h : ∀ c, l.head? = some c → pyWs c = false) :
    l.dropWhile pyWs = l := by
  cases l with
  | nil => rfl
  | cons d ds =>
    rw [List.dropWhile_cons, if_neg]
    simp [h d rfl]

lemma pyStrip_mem (l : List Char) (c : Char) (hc : c ∈ pyStrip l) : c ∈ l := by
  unfold pyStrip at hc
  rw [List.mem_reverse] at hc
  have h2 := (List.dropWhile_sublist pyWs).mem hc
  rw [List.mem_reverse] at h2
  exact (List.dropWhile_sublist pyWs).mem h2

lemma pyStrip_chain (l : List Char) (h : List.Chain' noWsPair l) :
    List.Chain' noWsPair (pyStrip l) := by
  have hsymm : ∀ a b : Char, noWsPair a b → noWsPair b a :=
    fun a b hab ⟨hx, hy⟩ => hab ⟨hy, hx⟩
  have h1 : List.Chain' noWsPair (l.dropWhile pyWs) :=
    h.suffix (List.dropWhile_suffix pyWs)
  have h2 : List.Chain' noWsPair (l.dropWhile pyWs).reverse := by
    rw [List.chain'_reverse]
    exact h1.imp hsymm
  have h3 : List.Chain' noWsPair ((l.dropWhile pyWs).reverse.dropWhile pyWs) :=
    h2.suffix (List.dropWhile_suffix pyWs)
  unfold pyStrip
  rw [List.chain'_reverse]
  exact h3.imp hsymm

lemma pyStrip_head (l : List Char) (c : Char)
    (hc : (pyStrip l).head? = some c) : pyWs c = false := by
  unfold pyStrip at hc
  rw [List.head?_reverse] at hc
  obtain ⟨t, ht⟩ := @List.dropWhile_suffix Char ((l.dropWhile pyWs).reverse) pyWs
  have h2 : ((l.dropWhile pyWs).reverse).getLast? = some c := by
    rw [← ht, List.getLast?_append, hc]
    rfl
  rw [List.getLast?_reverse] at h2
  exact dropWhile_head_pyWs l c h2

lemma pyStrip_getLast (l : List Char) (c : Char)
    (hc : (pyStrip l).getLast? = some c) : pyWs c = false := by
  unfold pyStrip at hc
  rw [List.getLast?_reverse] at hc
  exact dropWhile_head_pyWs _ c hc

lemma pyStrip_id (l : List Char)
    (hlead : ∀ c, l.head? = some c → pyWs c = false)
    (htrail : ∀ c, l.getLast? = some c → pyWs c = false) :
    pyStrip l = l := by
  unfold pyStrip
  rw [dropWhile_id_of_head l hlead]
  rw [dropWhile_id_of_head l.reverse (fun c hc =>
    htrail c (by rwa [List.head?_reverse] at hc))]
  exact List.reverse_reverse l

def exS3 : List Char := ['a', ' ', Char.ofNat 0, ' ', 'b']

/-- C3 counterexample: on `"a \x00 b"` one application of `clean_text`
yields `"a  b"` (removing the non-printable NUL merges two whitespace runs),
and a second application collapses the new double space, so
`clean_text (clean_text s) ≠ clean_text s`. -/
theorem clean_text_not_idempotent :
    clean_text (clean_text exS3) ≠ clean_text exS3 := by decide

/-- C3 (amended): `clean_text` is idempotent on every string all of whose
characters are printable; in general removing a non-printable character can
merge two whitespace runs, so a second application can differ (see the
counterexample). -/
theorem clean_text_idempotent_on_printable (s : List Char)
    (hp : ∀ c ∈ s, pyPrintable c = true) :
    clean_text (clean_text s) = clean_text s := by
  have hcp : ∀ c ∈ collapseWs s, pyPrintable c = true := by
    intro c hc
    rcases collapseWsAux_mem s false c hc with h | rfl
    · exact hp c h
    · decide
  have hfil : (collapseWs s).filter pyPrintable = collapseWs s :=
    List.filter_eq_self.mpr hcp
  have hy : clean_text s = pyStrip (collapseWs s) := by
    unfold clean_text
    rw [hfil]
  have hspace : ∀ c ∈ pyStrip (collapseWs s), pyWs c = true → c = ' ' :=
    fun c hc hw => collapseWsAux_allSpace s false c (pyStrip_mem _ c hc) hw
  have hchain : List.Chain' noWsPair (pyStrip (collapseWs s)) :=
    pyStrip_chain _ (collapseWsAux_chain s false)
  have hyprint : ∀ c ∈ pyStrip (collapseWs s), pyPrintable c = true :=
    fun c hc => hcp c (pyStrip_mem _ c hc)
  have hcy : collapseWs (pyStrip (collapseWs s)) = pyStrip (collapseWs s) :=
    collapseWsAux_id _ hspace hchain
  rw [hy]
  unfold clean_text
  rw [hcy]
  rw [List.filter_eq_self.mpr hyprint]
  exact pyStrip_id _ (pyStrip_head _) (pyStrip_getLast _)

theorem clean_text_idempotent_on_printable_witness :
    clean_text (clean_text ("  Hello   World  ".toList)) =
      clean_text ("  Hello   World  ".toList) ∧
    clean_text ("  Hello   World  ".toList) = "Hello World".toList :=
  ⟨clean_text_idempotent_on_printable ("  Hello   World  ".toList) (by decide), by decide⟩
